import Mathlib

/-!
Verification of the snsm note manager (final revision of `main.go`).

The development shallowly embeds the core logic of the program:
the tag codec (`extractTags`, `formatTagsWithPlus`), the catalog scanner
(`findMarkdownFiles`), the selection state machine (`model` / `Update` /
the `main` wiring), and the editor handoff (`openInEditor`).

Strings are modelled as lists of characters (`Str`).  External
collaborators (the bubbles list and textinput widgets, the file system,
the editor process) are modelled only through the contract the core code
uses, as the specification prescribes.
-/

set_option linter.unusedVariables false

deriving instance DecidableEq for Except

namespace Snsm

/-- Go strings are modelled as lists of characters. -/
abbrev Str := List Char

/-- Convenience conversion from a Lean string literal to `Str`. -/
def str (s : String) : Str := s.toList

/-- Models Go `unicode.IsSpace` on the characters it recognises in the
Latin-1 range: tab, newline, vertical tab, form feed, carriage return,
space, next line, and no-break space. -/
def isSpace (c : Char) : Bool :=
  c == ' ' || c == '\t' || c == '\n' || c == '\x0b' || c == '\x0c' ||
  c == '\x0d' || c == '\u0085' || c == '\u00A0'

/-- Word character of the Go regexp class `\w`: ASCII letters, digits and
the underscore. -/
def isWordChar (c : Char) : Bool :=
  c.isAlphanum || c == '_'

/-- Models Go `strings.HasPrefix s pre`. -/
def startsWith (s pre : Str) : Bool :=
  match pre, s with
  | [], _ => true
  | _ :: _, [] => false
  | p :: ps, c :: cs => (c == p) && startsWith cs ps

/-- Models Go `strings.HasSuffix s suf`. -/
def endsWith (s suf : Str) : Bool :=
  startsWith s.reverse suf.reverse

/-- Models Go `strings.TrimSuffix s suf`: removes one trailing copy of
`suf` when present. -/
def trimSuffix (s suf : Str) : Str :=
  if endsWith s suf then s.take (s.length - suf.length) else s

/-- Models Go `strings.ToLower` (the program only ever inspects the
ASCII suffix `.md` of the result). -/
def toLowerStr (s : Str) : Str := s.map Char.toLower

/-- Models Go `strings.Join ws sep` for `sep = " "` and friends. -/
def join (sep : Str) : List Str → Str
  | [] => []
  | [w] => w
  | w :: ws => w ++ sep ++ join sep ws

/-- Accumulator worker for `fields`; `acc` is the word currently being
read. -/
def fieldsAux : Str → Str → List Str
  | acc, [] => if acc.isEmpty then [] else [acc]
  | acc, c :: rest =>
    if isSpace c then
      if acc.isEmpty then fieldsAux [] rest else acc :: fieldsAux [] rest
    else fieldsAux (acc ++ [c]) rest

/-- Models Go `strings.Fields`: the maximal whitespace-free words of a
string, in order. -/
def fields (s : Str) : List Str := fieldsAux [] s

/-! ### Tag codec -/

/-- Scanner for the Go regexp `\+\w+` as used by
`regexp.FindAllString(line, -1)` in `extractTags`: successive leftmost
non-overlapping matches, each a `+` followed by a maximal nonempty run of
word characters.  `none` means we are looking for a `+`; `some acc` means
a `+` was just consumed and `acc` holds the word characters matched so
far. -/
def scanTags : Option Str → Str → List Str
  | none, [] => []
  | none, c :: rest =>
    if c == '+' then scanTags (some []) rest else scanTags none rest
  | some acc, [] => if acc.isEmpty then [] else [('+' :: acc)]
  | some acc, c :: rest =>
    if isWordChar c then scanTags (some (acc ++ [c])) rest
    else
      let tail := if c == '+' then scanTags (some []) rest else scanTags none rest
      if acc.isEmpty then tail else ('+' :: acc) :: tail

/-- The list `matches` built inside Go `extractTags(line)`: all matches of
`\+\w+` in the line, kept verbatim (the `+` marker is not removed). -/
def extractTagsList (line : Str) : List Str := scanTags none line

/-- Go `extractTags(line)`: the matches of `\+\w+` joined with single
spaces. -/
def extractTags (line : Str) : Str := join (str " ") (extractTagsList line)

/-- The tag-decoding step of `findMarkdownFiles`, at the level of the tag
token list: tags are extracted only when the first line starts with the
marker `//`; any other line contributes no tags. -/
def decodeTagLine (line : Str) : List Str :=
  if startsWith line (str "//") then extractTagsList line else []

/-- The word a tag word becomes inside the loop of Go
`formatTagsWithPlus`: a `+` is prepended unless already present. -/
def plusWord (w : Str) : Str :=
  if startsWith w (str "+") then w else '+' :: w

/-- Go `formatTagsWithPlus(tags)`: splits the free-text phrase into
whitespace-separated words, prefixes each with `+` (only when missing)
and joins them back with single spaces. -/
def formatTagsWithPlus (tags : Str) : Str :=
  join (str " ") ((fields tags).map plusWord)

/-! ### Specification-side characterisation of the tag matches

The specification describes `Decode` as extracting "every maximal run of
a marker character (`+`) followed immediately by one or more word
characters, in left-to-right order of appearance".  The following
definitions state that characterisation directly, by position in the
line, to be compared with the implementation scanner `scanTags`. -/

/-- Position `i` of `s` starts a tag run: it holds `+` and is immediately
followed by a word character. -/
def isTagStart (s : Str) (i : Nat) : Bool :=
  (match s[i]? with
   | some c => c == '+'
   | none => false) &&
  (match s[i+1]? with
   | some c => isWordChar c
   | none => false)

/-- The tag run beginning at position `i`: the `+` together with the
maximal run of word characters after it. -/
def tagRunAt (s : Str) (i : Nat) : Str :=
  '+' :: (s.drop (i+1)).takeWhile isWordChar

/-- All tag runs of a line, in left-to-right order of their starting
positions: the description the specification gives of the extracted tags. -/
def specTagRuns (s : Str) : List Str :=
  (List.range s.length).filterMap fun i =>
    if isTagStart s i then some (tagRunAt s i) else none

/-! ### Catalog scanner -/

/-- Go `noteItem`: a catalog entry, its file name and the (joined) tag
string extracted from its first line. -/
structure NoteItem where
  filename : Str
  tags : Str
deriving DecidableEq

/-- One entry of a directory listing, as far as `findMarkdownFiles`
observes it: its name, whether it is a directory, and the first line of
the file when the file can be opened and a first line can be read
(`none` covers both an unreadable and an empty file). -/
structure DirEntry where
  name : Str
  isDir : Bool
  firstLine : Option Str
deriving DecidableEq

/-- The filter condition of the loop in Go `findMarkdownFiles`: not a
directory, not a dot-file, and the lower-cased name ends in `.md`. -/
def entryQualifies (e : DirEntry) : Bool :=
  !e.isDir && !(startsWith e.name (str ".")) &&
    endsWith (toLowerStr e.name) (str ".md")

/-- The `tags` string computed for one qualifying entry in Go
`findMarkdownFiles`: initialised to the empty string, replaced by
`extractTags(firstLine)` only when a first line could be read and it
starts with `//`. -/
def entryTags (e : DirEntry) : Str :=
  match e.firstLine with
  | some l => if startsWith l (str "//") then extractTags l else []
  | none => []

/-- Go `findMarkdownFiles(dir)`: fails exactly when the directory cannot
be listed (`none` input models the `os.ReadDir` error); otherwise folds
over the listing in order, appending a `noteItem` for each qualifying
entry. -/
def findMarkdownFiles (listing : Option (List DirEntry)) :
    Option (List NoteItem) :=
  match listing with
  | none => none
  | some entries =>
    some (entries.foldl
      (fun files e =>
        if entryQualifies e then files ++ [⟨e.name, entryTags e⟩] else files)
      [])

/-! ### Editor handoff -/

/-- Go `capitalizeFirstLetter`. -/
def capitalizeFirstLetter (s : Str) : Str :=
  match s with
  | [] => []
  | c :: rest => c.toUpper :: rest

/-- Go `filepath.Base`: the last element of the path, after removing
trailing slashes; `"."` for the empty path, `"/"` for a path of only
slashes. -/
def baseName (p : Str) : Str :=
  if p.isEmpty then str "."
  else
    let q := (p.reverse.dropWhile (· == '/')).reverse
    if q.isEmpty then str "/"
    else (q.reverse.takeWhile (fun c => !(c == '/'))).reverse

/-- The external editor process invocation, as far as the core observes
it: the program and its single argument. -/
structure EditorLaunch where
  program : Str
  arg : Str
deriving DecidableEq

/-- Go `openInEditor(fullPath, tags)`.  The file system is passed in as
`existing` (the current content of `fullPath`, or `none` when the file
does not exist, mirroring the `os.Stat` check); the `EDITOR` environment
variable is passed as `editor` (Go `os.Getenv` yields `""` when unset).
The result is the error, or the content the file holds when the editor
is launched together with the launch itself. -/
def openInEditor (editor : Str) (existing : Option Str)
    (fullPath tags : Str) : Except Str (Str × EditorLaunch) :=
  if editor = [] then
    .error (str "EDITOR environment variable not set")
  else
    let content :=
      match existing with
      | some c => c
      | none =>
        let title :=
          capitalizeFirstLetter (trimSuffix (baseName fullPath) (str ".md"))
        (if tags ≠ [] then
          str "// " ++ formatTagsWithPlus tags ++ ['\n']
         else []) ++
          (str "# " ++ title ++ ['\n', '\n'])
    .ok (content, ⟨editor, fullPath⟩)

/-! ### Selection session state machine -/

/-- The three interaction modes (Go constants `modeList`, `modeInput`,
`modeTagInput`). -/
inductive Mode where
  | modeList
  | modeInput
  | modeTagInput
deriving DecidableEq

/-- The Go `model`, restricted to the fields the core logic reads or
writes.  The two text inputs appear through their contract (the current
text value); the list widget appears through the three observations the
code makes of it: whether `Items()` is non-nil, the currently selected
item, and whether the user is editing the filter. -/
structure Model where
  mode : Mode
  choice : Str
  quitting : Bool
  textInput : Str
  tagInput : Str
  newNoteTags : Str
  listItems : Option (List NoteItem)
  selected : Option NoteItem
  settingFilter : Bool
deriving DecidableEq

/-- The messages the `Update` function distinguishes: key messages
(identified by their `String()` form) and window resizes. -/
inductive Msg where
  | key (s : Str)
  | windowSize (w h : Int)
deriving DecidableEq

/-- Contract model of the external bubbles textinput widget, which the
core only uses through its current text value: a single printable
character key appends to the value, backspace removes the last
character, any other message leaves the value unchanged. -/
def textInputUpdate (value : Str) (msg : Msg) : Str :=
  match msg with
  | .key [c] => value ++ [c]
  | .key s => if s = str "backspace" then value.dropLast else value
  | .windowSize _ _ => value

/-- The filename normalisation performed on confirm in `modeInput`
(Go: `strings.TrimSuffix(filename, ".md")` then `filename += ".md"`):
strip one trailing `.md` if present, then always append `.md`. -/
def normalizeFilename (s : Str) : Str :=
  trimSuffix s (str ".md") ++ str ".md"

/-- Go `model.Update`, returning the updated model and whether the
returned command was `tea.Quit`.  Messages the code does not handle
itself are delegated to the external widgets: the list widget owns no
field of `Model`, so that delegation leaves the model unchanged; the
text inputs are updated through `textInputUpdate`. -/
def update (m : Model) (msg : Msg) : Model × Bool :=
  match m.mode with
  | .modeList =>
    match msg with
    | .key s =>
      if s = str "q" ∨ s = str "ctrl+c" then
        ({ m with quitting := true }, true)
      else if s = str "enter" then
        match m.selected with
        | some i => ({ m with choice := i.filename }, true)
        | none => (m, false)
      else if s = str "n" then
        if !m.settingFilter then ({ m with mode := .modeInput }, false)
        else (m, false)
      else (m, false)
    | .windowSize _ _ => (m, false)
  | .modeInput =>
    match msg with
    | .key s =>
      if s = str "esc" then
        if m.listItems ≠ none then ({ m with mode := .modeList }, false)
        else ({ m with quitting := true }, true)
      else if s = str "enter" ∧ m.textInput ≠ [] then
        ({ m with
            choice := normalizeFilename m.textInput
            mode := .modeTagInput }, false)
      else ({ m with textInput := textInputUpdate m.textInput msg }, false)
    | _ => ({ m with textInput := textInputUpdate m.textInput msg }, false)
  | .modeTagInput =>
    match msg with
    | .key s =>
      if s = str "esc" then ({ m with mode := .modeInput }, false)
      else if s = str "enter" then
        ({ m with newNoteTags := m.tagInput }, true)
      else ({ m with tagInput := textInputUpdate m.tagInput msg }, false)
    | _ => ({ m with tagInput := textInputUpdate m.tagInput msg }, false)

/-- Go `initialModel` (the widget set-up aside): list mode, everything
empty, no list attached yet. -/
def initialModel : Model :=
  { mode := .modeList
    choice := []
    quitting := false
    textInput := []
    tagInput := []
    newNoteTags := []
    listItems := none
    selected := none
    settingFilter := false }

/-- Go `initialNewNoteModel`: `initialModel` switched to filename input
mode. -/
def initialNewNoteModel : Model :=
  { initialModel with mode := .modeInput }

/-- The model `main` hands to the bubbletea program: when the scan found
no files, `initialNewNoteModel` (whose list is never set, so `Items()`
is nil); otherwise `initialModel` with the list attached, the first file
selected, and the filter not being edited (the bubbles list starts in
the unfiltered state). -/
def mainModel (files : List NoteItem) : Model :=
  if files.isEmpty then initialNewNoteModel
  else
    { initialModel with
        listItems := some files
        selected := files.head?
        settingFilter := false }

/-- The bubbletea event loop: feed messages one at a time, stopping as
soon as `tea.Quit` is returned. -/
def runSession : Model → List Msg → Model
  | m, [] => m
  | m, msg :: rest =>
    match update m msg with
    | (m1, true) => m1
    | (m1, false) => runSession m1 rest

/-- The guard in Go `main` after the program exits: the editor handoff
runs if and only if `m.choice != ""`. -/
def mainLaunchesEditor (final : Model) : Bool :=
  !final.choice.isEmpty

/-! ### Lemmas about the string helpers -/

theorem startsWith_append (p r : Str) : startsWith (p ++ r) p = true := by
  induction p with
  | nil => cases r <;> rfl
  | cons c cs ih => simp [startsWith, ih]

theorem startsWith_cons_ne (c p : Char) (s : Str) (h : (c == p) = false) :
    startsWith (c :: s) (p :: []) = false := by
  simp [startsWith, h]

theorem endsWith_append (x suf : Str) : endsWith (x ++ suf) suf = true := by
  unfold endsWith
  rw [List.reverse_append]
  exact startsWith_append suf.reverse x.reverse

theorem trimSuffix_append (x suf : Str) : trimSuffix (x ++ suf) suf = x := by
  unfold trimSuffix
  rw [endsWith_append]
  simp [List.take_left]

theorem normalizeFilename_idem (s : Str) :
    normalizeFilename (normalizeFilename s) = normalizeFilename s := by
  unfold normalizeFilename
  rw [trimSuffix_append]

/-! ### Lemmas about `fields` and `join` -/

theorem fieldsAux_append_word (w : Str) (hw : ∀ c ∈ w, isSpace c = false) :
    ∀ acc s, fieldsAux acc (w ++ s) = fieldsAux (acc ++ w) s := by
  induction w with
  | nil => intro acc s; simp
  | cons c cs ih =>
    intro acc s
    have hc : isSpace c = false := hw c (List.mem_cons_self c cs)
    have hcs : ∀ d ∈ cs, isSpace d = false := fun d hd => hw d (List.mem_cons_of_mem c hd)
    show fieldsAux acc (c :: (cs ++ s)) = _
    rw [fieldsAux]
    rw [hc]
    simp only [Bool.false_eq_true, if_false]
    rw [ih hcs (acc ++ [c]) s]
    simp

theorem fieldsAux_word_nil (w : Str) (hw0 : w ≠ [])
    (hw : ∀ c ∈ w, isSpace c = false) : fieldsAux [] w = [w] := by
  have h2 := fieldsAux_append_word w hw [] []
  simp only [List.append_nil, List.nil_append] at h2
  rw [h2, fieldsAux]
  simp [hw0]

theorem fields_join (ws : List Str)
    (h : ∀ w ∈ ws, w ≠ [] ∧ ∀ c ∈ w, isSpace c = false) :
    fields (join (str " ") ws) = ws := by
  induction ws with
  | nil => rfl
  | cons w ws ih =>
    have hw := h w (List.mem_cons_self w ws)
    have hws : ∀ u ∈ ws, u ≠ [] ∧ ∀ c ∈ u, isSpace c = false :=
      fun u hu => h u (List.mem_cons_of_mem w hu)
    cases ws with
    | nil => exact fieldsAux_word_nil w hw.1 hw.2
    | cons w2 ws2 =>
      have hj : join (str " ") (w :: w2 :: ws2) =
          w ++ (' ' :: join (str " ") (w2 :: ws2)) := by
        show (w ++ str " ") ++ join (str " ") (w2 :: ws2) = _
        simp [str, List.append_assoc]
      unfold fields
      rw [hj, fieldsAux_append_word w hw.2 [] _]
      simp only [List.nil_append]
      have hne : w.isEmpty = false := by
        simpa [List.isEmpty_iff] using hw.1
      rw [fieldsAux]
      have hsp : isSpace ' ' = true := by decide
      rw [hsp, if_pos rfl, hne]
      simp only [Bool.false_eq_true, if_false]
      rw [show fieldsAux [] (join (str " ") (w2 :: ws2)) =
        fields (join (str " ") (w2 :: ws2)) from rfl]
      rw [ih hws]

theorem fields_words (s : Str) :
    ∀ w ∈ fields s, w ≠ [] ∧ ∀ c ∈ w, isSpace c = false := by
  have key : ∀ (t : Str) (acc : Str), (∀ c ∈ acc, isSpace c = false) →
      ∀ w ∈ fieldsAux acc t, w ≠ [] ∧ ∀ c ∈ w, isSpace c = false := by
    intro t
    induction t with
    | nil =>
      intro acc hacc w hwmem
      simp only [fieldsAux] at hwmem
      by_cases hacc0 : acc.isEmpty
      · simp [hacc0] at hwmem
      · simp [hacc0] at hwmem
        subst hwmem
        exact ⟨by simpa [List.isEmpty_iff] using hacc0, hacc⟩
    | cons c rest ih =>
      intro acc hacc w hwmem
      simp only [fieldsAux] at hwmem
      by_cases hc : isSpace c
      · simp only [hc, if_true] at hwmem
        by_cases hacc0 : acc.isEmpty
        · simp only [hacc0, if_true] at hwmem
          exact ih [] (by simp) w hwmem
        · simp only [hacc0, if_false] at hwmem
          rcases List.mem_cons.mp hwmem with h1 | h2
          · subst h1
            exact ⟨by simpa [List.isEmpty_iff] using hacc0, hacc⟩
          · exact ih [] (by simp) w h2
      · simp only [hc, if_false] at hwmem
        refine ih (acc ++ [c]) ?_ w hwmem
        intro d hd
        rcases List.mem_append.mp hd with h1 | h2
        · exact hacc d h1
        · simp at h2; subst h2; simpa using hc
  exact key s [] (by simp)

/-! ### Lemmas about the tag-run characterisation -/

theorem isWordChar_ne_plus {c : Char} (h : isWordChar c = true) :
    (c == '+') = false := by
  by_cases hc : c = '+'
  · subst hc; exact absurd h (by decide)
  · simpa using hc

theorem isWordChar_not_space {c : Char} (h : isWordChar c = true) :
    isSpace c = false := by
  by_cases hs : isSpace c = true
  · have : c = ' ' ∨ c = '\t' ∨ c = '\n' ∨ c = '\x0b' ∨ c = '\x0c' ∨
        c = '\x0d' ∨ c = '\u0085' ∨ c = '\u00A0' := by
      simpa [isSpace, or_assoc] using hs
    rcases this with h1 | h1 | h1 | h1 | h1 | h1 | h1 | h1 <;>
      (subst h1; exact absurd h (by decide))
  · simpa using hs

theorem takeWhile_append_all {p : Char → Bool} (w r : Str)
    (hw : ∀ c ∈ w, p c = true) (hr : ∀ d, r[0]? = some d → p d = false) :
    (w ++ r).takeWhile p = w := by
  induction w with
  | nil =>
    cases r with
    | nil => rfl
    | cons d rest => simp [List.takeWhile_cons, hr d (by simp)]
  | cons c cs ih =>
    have hc := hw c (List.mem_cons_self c cs)
    have hcs : ∀ d ∈ cs, p d = true := fun d hd => hw d (List.mem_cons_of_mem c hd)
    simp [List.takeWhile_cons, hc, ih hcs]

theorem specTagRuns_cons (c : Char) (s : Str) :
    specTagRuns (c :: s) =
      (if isTagStart (c :: s) 0 then ['+' :: s.takeWhile isWordChar] else [])
        ++ specTagRuns s := by
  unfold specTagRuns
  rw [List.length_cons, List.range_succ_eq_map, List.filterMap_cons,
    List.filterMap_map]
  have h1 : ((fun i => if isTagStart (c :: s) i then some (tagRunAt (c :: s) i) else none)
      ∘ Nat.succ)
      = fun i => if isTagStart s i then some (tagRunAt s i) else none := by
    funext i
    have e1 : isTagStart (c :: s) (i+1) = isTagStart s i := by
      simp [isTagStart, List.getElem?_cons_succ]
    have e2 : tagRunAt (c :: s) (i+1) = tagRunAt s i := by
      simp [tagRunAt, List.drop_succ_cons]
    simp only [Function.comp_apply, e1, e2]
  rw [h1]
  have e0 : tagRunAt (c :: s) 0 = '+' :: s.takeWhile isWordChar := by
    simp [tagRunAt]
  by_cases h0 : isTagStart (c :: s) 0
  · rw [if_pos h0, if_pos h0, e0]
    rfl
  · rw [if_neg h0, if_neg h0]
    rfl

theorem specTagRuns_word_skip (w r : Str)
    (hw : ∀ c ∈ w, isWordChar c = true) :
    specTagRuns (w ++ r) = specTagRuns r := by
  induction w with
  | nil => rfl
  | cons c cs ih =>
    have hc := hw c (List.mem_cons_self c cs)
    have hcs : ∀ d ∈ cs, isWordChar d = true :=
      fun d hd => hw d (List.mem_cons_of_mem c hd)
    rw [List.cons_append, specTagRuns_cons]
    have h0 : isTagStart (c :: (cs ++ r)) 0 = false := by
      simp [isTagStart, isWordChar_ne_plus hc]
    rw [h0]
    simp only [Bool.false_eq_true, if_false, List.nil_append]
    exact ih hcs

theorem specTagRuns_plus (w r : Str) (hw0 : w ≠ [])
    (hw : ∀ c ∈ w, isWordChar c = true)
    (hr : ∀ d, r[0]? = some d → isWordChar d = false) :
    specTagRuns ('+' :: (w ++ r)) = ('+' :: w) :: specTagRuns r := by
  rw [specTagRuns_cons]
  cases w with
  | nil => exact absurd rfl hw0
  | cons a as =>
    have ha := hw a (List.mem_cons_self a as)
    have h0 : isTagStart ('+' :: ((a :: as) ++ r)) 0 = true := by
      simp [isTagStart, ha]
    rw [h0, if_pos rfl]
    rw [takeWhile_append_all (a :: as) r hw hr]
    rw [specTagRuns_word_skip (a :: as) r hw]
    rfl

/-- The scanner agrees with the specification characterisation; the
second component carries the invariant for a partially consumed match. -/
theorem scanTags_spec (s : Str) :
    (scanTags none s = specTagRuns s) ∧
    (∀ acc, (∀ c ∈ acc, isWordChar c = true) →
      scanTags (some acc) s = specTagRuns ('+' :: (acc ++ s))) := by
  induction s with
  | nil =>
    refine ⟨rfl, ?_⟩
    intro acc hacc
    cases acc with
    | nil => rfl
    | cons a as =>
      have ha := hacc a (List.mem_cons_self a as)
      rw [show scanTags (some (a :: as)) [] = [('+' :: (a :: as))] from rfl]
      rw [specTagRuns_plus (a :: as) [] (by simp) hacc (by intro d hd; simp at hd)]
      rfl
  | cons c rest ih =>
    have htail : (if c == '+' then scanTags (some []) rest else scanTags none rest)
        = specTagRuns (c :: rest) := by
      by_cases hc : c = '+'
      · subst hc
        rw [if_pos (show (('+' : Char) == '+') = true by decide)]
        have := ih.2 [] (by simp)
        simpa using this
      · rw [if_neg (by simpa using hc)]
        rw [ih.1, specTagRuns_cons]
        have h0 : isTagStart (c :: rest) 0 = false := by
          simp [isTagStart, hc]
        rw [h0]
        simp
    constructor
    · show (if c == '+' then scanTags (some []) rest else scanTags none rest)
        = specTagRuns (c :: rest)
      exact htail
    · intro acc hacc
      by_cases hw : isWordChar c = true
      · have step : scanTags (some acc) (c :: rest)
            = scanTags (some (acc ++ [c])) rest := by
          show (if isWordChar c then scanTags (some (acc ++ [c])) rest else _)
            = _
          rw [hw, if_pos rfl]
        rw [step]
        have hacc2 : ∀ d ∈ acc ++ [c], isWordChar d = true := by
          intro d hd
          rcases List.mem_append.mp hd with h1 | h1
          · exact hacc d h1
          · simp at h1; subst h1; exact hw
        rw [ih.2 (acc ++ [c]) hacc2]
        simp [List.append_assoc]
      · have hwf : isWordChar c = false := by simpa using hw
        have step : scanTags (some acc) (c :: rest)
            = (if acc.isEmpty then
                (if c == '+' then scanTags (some []) rest else scanTags none rest)
               else ('+' :: acc) ::
                (if c == '+' then scanTags (some []) rest else scanTags none rest)) := by
          show (if isWordChar c then scanTags (some (acc ++ [c])) rest else _) = _
          rw [hwf]
          simp
        rw [step]
        cases acc with
        | nil =>
          simp only [List.isEmpty_nil, if_true]
          rw [htail]
          rw [show ([] : Str) ++ (c :: rest) = c :: rest from rfl]
          rw [specTagRuns_cons ('+') (c :: rest)]
          have h0 : isTagStart ('+' :: (c :: rest)) 0 = false := by
            simp [isTagStart, hwf]
          rw [h0]
          simp
        | cons a as =>
          simp only [List.isEmpty_cons, Bool.false_eq_true, if_false]
          rw [htail]
          rw [specTagRuns_plus (a :: as) (c :: rest) (by simp) hacc
            (by intro d hd; simp at hd; subst hd; exact hwf)]

/-- The match list of the implementation coincides with the
maximal tag runs of the specification, for every line. -/
theorem extractTagsList_eq_specTagRuns (line : Str) :
    extractTagsList line = specTagRuns line :=
  (scanTags_spec line).1

/-! ### Lemmas about encoding -/

theorem startsWith_nil (s : Str) : startsWith s [] = true := by
  cases s <;> rfl

theorem plusWord_bare (w : Str) (hw0 : w ≠ [])
    (hw : ∀ c ∈ w, isWordChar c = true) : plusWord w = '+' :: w := by
  cases w with
  | nil => exact absurd rfl hw0
  | cons a as =>
    have ha := hw a (List.mem_cons_self a as)
    unfold plusWord
    have hstr : (str "+") = ['+'] := rfl
    rw [hstr]
    have h1 : startsWith (a :: as) ['+'] = ((a == '+') && startsWith as []) := rfl
    rw [h1, startsWith_nil, Bool.and_true, isWordChar_ne_plus ha]
    simp

theorem fields_formatTagsWithPlus (t : Str) :
    fields (formatTagsWithPlus t) = (fields t).map plusWord := by
  unfold formatTagsWithPlus
  apply fields_join
  intro w hw
  rcases List.mem_map.mp hw with ⟨u, hu, rfl⟩
  have hprops := fields_words t u hu
  constructor
  · unfold plusWord
    by_cases h : startsWith u (str "+")
    · rw [if_pos h]; exact hprops.1
    · rw [if_neg h]; simp
  · intro c hc
    unfold plusWord at hc
    by_cases h : startsWith u (str "+")
    · rw [if_pos h] at hc
      exact hprops.2 c hc
    · rw [if_neg h] at hc
      rcases List.mem_cons.mp hc with h1 | h1
      · subst h1; decide
      · exact hprops.2 c h1

theorem specTagRuns_encoded (ws : List Str)
    (h : ∀ w ∈ ws, w ≠ [] ∧ ∀ c ∈ w, isWordChar c = true) :
    specTagRuns (join (str " ") (ws.map (fun w => '+' :: w)))
      = ws.map (fun w => '+' :: w) := by
  induction ws with
  | nil => rfl
  | cons w ws ih =>
    have hw := h w (List.mem_cons_self w ws)
    have hws : ∀ u ∈ ws, u ≠ [] ∧ ∀ c ∈ u, isWordChar c = true :=
      fun u hu => h u (List.mem_cons_of_mem w hu)
    cases ws with
    | nil =>
      have h2 := specTagRuns_plus w [] hw.1 hw.2 (by intro d hd; simp at hd)
      rw [List.append_nil] at h2
      show specTagRuns ('+' :: w) = ['+' :: w]
      rw [h2]
      rfl
    | cons w2 ws2 =>
      have hj : join (str " ") (((w :: w2 :: ws2).map (fun w => '+' :: w))) =
          '+' :: (w ++ (' ' :: join (str " ") ((w2 :: ws2).map (fun w => '+' :: w)))) := by
        show (('+' :: w) ++ str " ") ++ _ = _
        simp [str, List.append_assoc]
      rw [hj]
      rw [specTagRuns_plus w _ hw.1 hw.2 (by intro d hd; simp at hd; exact hd ▸ (by decide))]
      rw [specTagRuns_cons]
      have h0 : isTagStart (' ' :: join (str " ") ((w2 :: ws2).map (fun w => '+' :: w))) 0
          = false := by
        simp [isTagStart]
      rw [h0]
      simp only [Bool.false_eq_true, if_false, List.nil_append]
      rw [ih hws]
      rfl

/-! ### Lemmas about the catalog scanner -/

theorem findMarkdownFiles_foldl (entries : List DirEntry) (acc : List NoteItem) :
    entries.foldl
      (fun files e =>
        if entryQualifies e then files ++ [⟨e.name, entryTags e⟩] else files)
      acc
    = acc ++ (entries.filter entryQualifies).map
        (fun e => ⟨e.name, entryTags e⟩) := by
  induction entries generalizing acc with
  | nil => simp
  | cons e es ih =>
    by_cases hq : entryQualifies e
    · simp only [List.foldl_cons, hq, if_pos, List.filter_cons_of_pos, List.map_cons]
      rw [ih]
      simp
    · have hq2 : entryQualifies e = false := by simpa using hq
      simp only [List.foldl_cons, hq2, Bool.false_eq_true, if_false]
      rw [List.filter_cons_of_neg (by simp [hq2])]
      exact ih acc

/-! ### Lemmas about the session state machine -/

theorem update_tag_esc (m : Model) (h : m.mode = Mode.modeTagInput) :
    update m (Msg.key (str "esc")) = ({ m with mode := Mode.modeInput }, false) := by
  obtain ⟨mo, ch, q, ti, tg, nt, li, se, sf⟩ := m
  obtain rfl : mo = Mode.modeTagInput := h
  rfl

theorem update_input_esc_items (m : Model) (h : m.mode = Mode.modeInput)
    (hl : m.listItems ≠ none) :
    update m (Msg.key (str "esc")) = ({ m with mode := Mode.modeList }, false) := by
  obtain ⟨mo, ch, q, ti, tg, nt, li, se, sf⟩ := m
  obtain rfl : mo = Mode.modeInput := h
  obtain ⟨items, rfl⟩ : ∃ x, li = some x := by
    cases li with
    | none => exact absurd rfl hl
    | some x => exact ⟨x, rfl⟩
  rfl

theorem update_input_esc_noitems (m : Model) (h : m.mode = Mode.modeInput)
    (hl : m.listItems = none) :
    update m (Msg.key (str "esc")) = ({ m with quitting := true }, true) := by
  obtain ⟨mo, ch, q, ti, tg, nt, li, se, sf⟩ := m
  obtain rfl : mo = Mode.modeInput := h
  obtain rfl : li = none := hl
  rfl

theorem update_input_enter_nonempty (m : Model) (h : m.mode = Mode.modeInput)
    (ht : m.textInput ≠ []) :
    update m (Msg.key (str "enter"))
      = ({ m with
            choice := normalizeFilename m.textInput
            mode := Mode.modeTagInput }, false) := by
  obtain ⟨mo, ch, q, ti, tg, nt, li, se, sf⟩ := m
  obtain rfl : mo = Mode.modeInput := h
  obtain ⟨c, cs, rfl⟩ : ∃ c cs, ti = c :: cs := by
    cases ti with
    | nil => exact absurd rfl ht
    | cons c cs => exact ⟨c, cs, rfl⟩
  rfl

theorem update_input_enter_empty (m : Model) (h : m.mode = Mode.modeInput)
    (ht : m.textInput = []) :
    update m (Msg.key (str "enter")) = (m, false) := by
  obtain ⟨mo, ch, q, ti, tg, nt, li, se, sf⟩ := m
  obtain rfl : mo = Mode.modeInput := h
  obtain rfl : ti = [] := ht
  rfl

/-! ## Claim theorems -/

/-- C1 (counterexample): the decoded tag list of `"// +golang +howto"` is
not `["golang", "howto"]` — the leading `+` markers are not stripped by
the code, contrary to the claim. -/
theorem decode_strips_marker_refuted :
    decodeTagLine (str "// +golang +howto") ≠ [str "golang", str "howto"] ∧
    decodeTagLine (str "// +golang +howto") = [str "+golang", str "+howto"] := by
  constructor
  · decide
  · decide

/-- C1 (amended): for every input line, if the line begins with `//` the
resulting tag list is exactly the maximal runs of `+` followed by one or
more word characters, each kept verbatim with its leading `+` (the
marker is not stripped), in left-to-right order of appearance; any other
line (including the empty line) yields the empty tag list; the function
is pure by construction.  In particular
`Decode("// +golang +howto") = ["+golang", "+howto"]`,
`Decode("# Title") = []` and `Decode("") = []`. -/
theorem decode_tag_runs :
    (∀ line, decodeTagLine line
        = if startsWith line (str "//") then specTagRuns line else []) ∧
    decodeTagLine (str "// +golang +howto") = [str "+golang", str "+howto"] ∧
    decodeTagLine (str "# Title") = [] ∧
    decodeTagLine (str "") = [] := by
  refine ⟨?_, by decide, by decide, by decide⟩
  intro line
  unfold decodeTagLine
  by_cases h : startsWith line (str "//") = true
  · rw [if_pos h, if_pos h, extractTagsList_eq_specTagRuns]
  · rw [if_neg h, if_neg h]

/-- C2 (counterexample): at the example input given by the specification the
initial body written for a new file is `"// +todo +urgent\n# Meeting\n\n"`,
with the heading directly after the tag line — not the body
`"// +todo +urgent\n\n# Meeting\n\n"` that the claimed blank line after
the tag line would produce. -/
theorem initial_body_blank_line_refuted :
    openInEditor (str "vi") none (str "meeting.md") (str "todo urgent")
      = .ok (str "// +todo +urgent\n# Meeting\n\n",
          ⟨str "vi", str "meeting.md"⟩) ∧
    str "// +todo +urgent\n# Meeting\n\n"
      ≠ str "// +todo +urgent\n\n# Meeting\n\n" := by
  constructor
  · decide
  · decide

/-- C2 (amended): on `Created(path, tagText)` with a configured editor,
if the file does not already exist the initial body written before
launching the editor consists of these lines: (only when the tag phrase
is non-empty) the encoded tag line, then — directly, with no blank line
in between — the markdown heading `"# "` plus the base name with the
extension stripped and its first character upper-cased, then one blank
line; if the file already exists, no initialization is performed and it
is opened unmodified. -/
theorem initial_body_spec (editor path tags : Str) (he : editor ≠ []) :
    (∀ existing, openInEditor editor (some existing) path tags
        = .ok (existing, ⟨editor, path⟩)) ∧
    openInEditor editor none path tags
      = .ok (join [('\n' : Char)]
          ((if tags ≠ [] then [str "// " ++ formatTagsWithPlus tags] else [])
            ++ [str "# " ++
                  capitalizeFirstLetter (trimSuffix (baseName path) (str ".md")),
                [], []]),
          ⟨editor, path⟩) := by
  constructor
  · intro existing
    unfold openInEditor
    rw [if_neg he]
  · unfold openInEditor
    rw [if_neg he]
    by_cases ht : tags = []
    · subst ht
      simp [join]
    · rw [if_pos ht, if_pos ht]
      simp [join, List.append_assoc]

/-- C2 (witness): the amended theorem applied at a concrete input: an
already-existing file is handed to the editor unmodified. -/
theorem initial_body_spec_witness :
    openInEditor (str "vi") (some (str "old content")) (str "meeting.md")
        (str "todo urgent")
      = .ok (str "old content", ⟨str "vi", str "meeting.md"⟩) :=
  (initial_body_spec (str "vi") (str "meeting.md") (str "todo urgent")
    (by decide)).1 (str "old content")

/-- C3 (code bug): a session in which a filename was confirmed and the
user then cancelled all the way back to browsing and quit still carries
the stale pending path, so `main` launches the editor (creating the
file) although the session ended in a quit that the specification maps
to `Cancelled` with no action.  The events: press `n`, type `foo`,
confirm, cancel out of tag entry, cancel out of filename entry, quit. -/
theorem cancelled_session_launches_editor :
    runSession (mainModel [⟨str "a.md", []⟩])
      [Msg.key (str "n"), Msg.key (str "f"), Msg.key (str "o"),
       Msg.key (str "o"), Msg.key (str "enter"), Msg.key (str "esc"),
       Msg.key (str "esc"), Msg.key (str "q")]
    = { mode := Mode.modeList, choice := str "foo.md", quitting := true,
        textInput := str "foo", tagInput := [], newNoteTags := [],
        listItems := some [⟨str "a.md", []⟩],
        selected := some ⟨str "a.md", []⟩, settingFilter := false } ∧
    mainLaunchesEditor (runSession (mainModel [⟨str "a.md", []⟩])
      [Msg.key (str "n"), Msg.key (str "f"), Msg.key (str "o"),
       Msg.key (str "o"), Msg.key (str "enter"), Msg.key (str "esc"),
       Msg.key (str "esc"), Msg.key (str "q")]) = true := by
  constructor
  · decide
  · decide

/-- C4: the catalog scanner returns exactly one entry, in
directory-enumeration order, for every non-directory, non-hidden entry
whose name case-insensitively ends in `.md`; an unreadable qualifying
file still yields an entry with an empty tag string; and the scan fails
exactly when the directory cannot be listed. -/
theorem findMarkdownFiles_spec :
    (∀ entries, findMarkdownFiles (some entries)
        = some ((entries.filter entryQualifies).map
            (fun e => ⟨e.name, entryTags e⟩))) ∧
    (∀ listing, findMarkdownFiles listing = none ↔ listing = none) ∧
    (∀ name isDir, entryTags ⟨name, isDir, none⟩ = []) := by
  refine ⟨?_, ?_, fun name isDir => rfl⟩
  · intro entries
    show some _ = some _
    rw [findMarkdownFiles_foldl entries []]
    rw [List.nil_append]
  · intro listing
    cases listing with
    | none => simp [findMarkdownFiles]
    | some entries => simp [findMarkdownFiles]

/-- C5 (counterexample): the all-whitespace tag phrase `" "` is not
empty as a Go string, so the code writes the degenerate tag line
`"// "`; the materialized file then does not begin with the title
heading, contrary to the claim. -/
theorem encode_whitespace_refuted :
    openInEditor (str "vi") none (str "x.md") (str " ")
      = .ok (str "// \n# X\n\n", ⟨str "vi", str "x.md"⟩) ∧
    startsWith (str "// \n# X\n\n") (str "#") = false := by
  constructor
  · decide
  · decide

/-- C5 (amended): every whitespace-separated word of the encoder output
is the corresponding input word with a `+` prepended exactly when it was
missing, so every output word starts with `+`; encoding the empty
phrase yields no tag line at all, the file then beginning directly with
the title heading; a non-empty all-whitespace phrase, however, yields
the degenerate marker line `"// "` before the heading. -/
theorem encode_plus_words_spec :
    (∀ tags, fields (formatTagsWithPlus tags) = (fields tags).map plusWord) ∧
    (∀ tags w, w ∈ fields (formatTagsWithPlus tags) →
      startsWith w (str "+") = true) ∧
    (∀ editor path, editor ≠ [] →
      openInEditor editor none path []
        = .ok (str "# " ++
            capitalizeFirstLetter (trimSuffix (baseName path) (str ".md"))
            ++ ['\n', '\n'], ⟨editor, path⟩)) ∧
    (∀ editor path tags, editor ≠ [] → tags ≠ [] → fields tags = [] →
      openInEditor editor none path tags
        = .ok (str "// " ++ ['\n'] ++
            (str "# " ++
              capitalizeFirstLetter (trimSuffix (baseName path) (str ".md"))
              ++ ['\n', '\n']), ⟨editor, path⟩)) := by
  refine ⟨fields_formatTagsWithPlus, ?_, ?_, ?_⟩
  · intro tags w hw
    rw [fields_formatTagsWithPlus] at hw
    rcases List.mem_map.mp hw with ⟨u, hu, rfl⟩
    unfold plusWord
    by_cases h : startsWith u (str "+") = true
    · rw [if_pos h]
      exact h
    · rw [if_neg h]
      show (('+' == '+') && startsWith u []) = true
      rw [startsWith_nil]
      decide
  · intro editor path he
    unfold openInEditor
    rw [if_neg he]
    rfl
  · intro editor path tags he ht hf
    unfold openInEditor
    rw [if_neg he]
    have hfmt : formatTagsWithPlus tags = [] := by
      unfold formatTagsWithPlus
      rw [hf]
      rfl
    rw [if_pos ht, hfmt]
    simp [List.append_assoc]

/-- C5 (witness): the amended theorem applied at the all-whitespace
phrase `" "`, producing the degenerate `"// "` line. -/
theorem encode_plus_words_spec_witness :
    openInEditor (str "vi") none (str "notes.md") (str " ")
      = .ok (str "// " ++ ['\n'] ++
          (str "# " ++
            capitalizeFirstLetter (trimSuffix (baseName (str "notes.md"))
              (str ".md"))
            ++ ['\n', '\n']), ⟨str "vi", str "notes.md"⟩) :=
  encode_plus_words_spec.2.2.2 (str "vi") (str "notes.md") (str " ")
    (by decide) (by decide) (by decide)

/-- C6 (counterexample): decoding the encoded tag line of the single
bare word `"a"` yields `["+a"]`, not the original `["a"]` — the decoder
does not strip the `+` the encoder added. -/
theorem roundtrip_refuted :
    decodeTagLine (str "// " ++ formatTagsWithPlus (join (str " ") [str "a"]))
      = [str "+a"] ∧ (str "+a") ≠ (str "a") := by
  constructor
  · decide
  · decide

/-- C6 (amended): for every non-empty list of bare tag words (non-empty
words of word characters), decoding the encoded tag line yields the same
words in the same order, each still carrying the `+` prefix the encoder
added (the decoder keeps the marker). -/
theorem roundtrip_with_marker (ws : List Str) (h0 : ws ≠ [])
    (h : ∀ w ∈ ws, w ≠ [] ∧ ∀ c ∈ w, isWordChar c = true) :
    decodeTagLine (str "// " ++ formatTagsWithPlus (join (str " ") ws))
      = ws.map (fun w => '+' :: w) := by
  have hwords : ∀ w ∈ ws, w ≠ [] ∧ ∀ c ∈ w, isSpace c = false :=
    fun w hw => ⟨(h w hw).1, fun c hc => isWordChar_not_space ((h w hw).2 c hc)⟩
  have hfmt : formatTagsWithPlus (join (str " ") ws)
      = join (str " ") (ws.map (fun w => '+' :: w)) := by
    unfold formatTagsWithPlus
    rw [fields_join ws hwords]
    congr 1
    apply List.map_congr_left
    intro w hw
    exact plusWord_bare w (h w hw).1 (h w hw).2
  rw [hfmt]
  have hdec : ∀ E : Str, decodeTagLine ('/' :: '/' :: ' ' :: E) = specTagRuns E := by
    intro E
    have h1 : decodeTagLine ('/' :: '/' :: ' ' :: E)
        = extractTagsList ('/' :: '/' :: ' ' :: E) := rfl
    rw [h1, extractTagsList_eq_specTagRuns]
    rw [specTagRuns_cons]
    rw [show isTagStart ('/' :: '/' :: ' ' :: E) 0 = false from by
      simp [isTagStart, show (('/' : Char) == '+') = false from by decide]]
    rw [specTagRuns_cons]
    rw [show isTagStart ('/' :: ' ' :: E) 0 = false from by
      simp [isTagStart, show (('/' : Char) == '+') = false from by decide]]
    rw [specTagRuns_cons]
    rw [show isTagStart (' ' :: E) 0 = false from by
      simp [isTagStart, show ((' ' : Char) == '+') = false from by decide]]
    simp
  have h2 : str "// " ++ join (str " ") (ws.map (fun w => '+' :: w))
      = '/' :: '/' :: ' ' :: join (str " ") (ws.map (fun w => '+' :: w)) := rfl
  rw [h2, hdec]
  exact specTagRuns_encoded ws h

/-- C6 (witness): the amended round-trip at the two example words. -/
theorem roundtrip_with_marker_witness :
    decodeTagLine (str "// " ++ formatTagsWithPlus
        (join (str " ") [str "golang", str "howto"]))
      = ([str "golang", str "howto"]).map (fun w => '+' :: w) :=
  roundtrip_with_marker [str "golang", str "howto"] (by decide) (by decide)

/-- C7: the session starts in `Browsing` exactly when the scanned
catalog is non-empty and in `CapturingFilename` exactly when it is
empty; cancel in `CapturingFilename` goes back to `Browsing` when a
catalog is attached and otherwise quits, which, when no filename was
ever confirmed (`choice` still empty), is the `Cancelled` outcome with
no editor launch. -/
theorem session_initial_and_cancel :
    (∀ files, files ≠ [] →
      (mainModel files).mode = Mode.modeList ∧
      (mainModel files).listItems = some files) ∧
    ((mainModel []).mode = Mode.modeInput ∧ (mainModel []).listItems = none) ∧
    (∀ m, m.mode = Mode.modeInput → m.listItems ≠ none →
      update m (Msg.key (str "esc")) = ({ m with mode := Mode.modeList }, false)) ∧
    (∀ m, m.mode = Mode.modeInput → m.listItems = none →
      update m (Msg.key (str "esc")) = ({ m with quitting := true }, true) ∧
      (m.choice = [] →
        mainLaunchesEditor (update m (Msg.key (str "esc"))).1 = false)) := by
  refine ⟨?_, ⟨rfl, rfl⟩, ?_, ?_⟩
  · intro files hf
    cases files with
    | nil => exact absurd rfl hf
    | cons f fs => exact ⟨rfl, rfl⟩
  · intro m h hl
    exact update_input_esc_items m h hl
  · intro m h hl
    refine ⟨update_input_esc_noitems m h hl, ?_⟩
    intro hc
    rw [update_input_esc_noitems m h hl]
    simp [mainLaunchesEditor, hc]

/-- C7 (witness): cancelling out of the empty-catalog filename capture
quits the session. -/
theorem session_initial_and_cancel_witness :
    update initialNewNoteModel (Msg.key (str "esc"))
      = ({ initialNewNoteModel with quitting := true }, true) :=
  (session_initial_and_cancel.2.2.2 initialNewNoteModel rfl rfl).1

/-- C8: confirming a non-empty filename buffer stores as pending path
the buffer with any one trailing `.md` stripped and `.md` then appended,
so `"foo"` and `"foo.md"` both resolve to `"foo.md"` and the
normalisation is idempotent; confirming an empty buffer is a no-op that
stays in `CapturingFilename`. -/
theorem filename_normalization_spec :
    normalizeFilename (str "foo") = str "foo.md" ∧
    normalizeFilename (str "foo.md") = str "foo.md" ∧
    (∀ s, normalizeFilename (normalizeFilename s) = normalizeFilename s) ∧
    (∀ m, m.mode = Mode.modeInput → m.textInput ≠ [] →
      update m (Msg.key (str "enter"))
        = ({ m with
              choice := normalizeFilename m.textInput
              mode := Mode.modeTagInput }, false)) ∧
    (∀ m, m.mode = Mode.modeInput → m.textInput = [] →
      update m (Msg.key (str "enter")) = (m, false)) :=
  ⟨by decide, by decide, normalizeFilename_idem,
    update_input_enter_nonempty, update_input_enter_empty⟩

/-- C8 (witness): confirming the buffer `"foo"` moves to tag capture
with pending path `"foo.md"`. -/
theorem filename_normalization_spec_witness :
    update { initialNewNoteModel with textInput := str "foo" }
        (Msg.key (str "enter"))
      = ({ initialNewNoteModel with
            textInput := str "foo"
            choice := str "foo.md"
            mode := Mode.modeTagInput }, false) := by
  rw [filename_normalization_spec.2.2.2.1
    { initialNewNoteModel with textInput := str "foo" } rfl (by decide)]
  decide

/-- C9: cancelling from `CapturingTags` returns to `CapturingFilename`
with every other session field — the filename buffer, the pending path
`choice`, the tag buffer, and all the rest — unchanged, and does not
quit. -/
theorem tag_cancel_preserves (m : Model) (h : m.mode = Mode.modeTagInput) :
    update m (Msg.key (str "esc")) = ({ m with mode := Mode.modeInput }, false) :=
  update_tag_esc m h

/-- C9 (witness): the transition at a concrete tag-capture state. -/
theorem tag_cancel_preserves_witness :
    update { initialNewNoteModel with
              mode := Mode.modeTagInput
              textInput := str "meeting"
              choice := str "meeting.md"
              tagInput := str "todo" } (Msg.key (str "esc"))
      = ({ initialNewNoteModel with
            mode := Mode.modeInput
            textInput := str "meeting"
            choice := str "meeting.md"
            tagInput := str "todo" }, false) := by
  rw [tag_cancel_preserves _ rfl]

/-- C10: filename normalisation strips the trailing extension
case-sensitively and at most once while the scanner matches it
case-insensitively and skips dot-files: every buffer ending in `".MD"`
gains a double extension, `"Foo.MD"` resolves to `"Foo.MD.md"`,
`"a.md.md"` is left as is, and the buffer `".md"` is accepted as a
non-empty filename resolving to the hidden path `".md"`, which a
subsequent scan will not list. -/
theorem normalization_scanner_mismatch :
    (∀ s, normalizeFilename (s ++ str ".MD") = s ++ str ".MD.md") ∧
    normalizeFilename (str "Foo.MD") = str "Foo.MD.md" ∧
    normalizeFilename (str "a.md.md") = str "a.md.md" ∧
    normalizeFilename (str ".md") = str ".md" ∧
    (∀ isDir firstLine, entryQualifies ⟨str ".md", isDir, firstLine⟩ = false) ∧
    findMarkdownFiles (some [⟨str ".md", false, some (str "// +x")⟩])
      = some [] ∧
    (∀ m, m.mode = Mode.modeInput → m.textInput = str ".md" →
      update m (Msg.key (str "enter"))
        = ({ m with choice := str ".md", mode := Mode.modeTagInput }, false)) := by
  have hends : ∀ s : Str, endsWith (s ++ str ".MD") (str ".md") = false := by
    intro s
    unfold endsWith
    rw [List.reverse_append]
    rw [show (str ".MD").reverse = 'D' :: 'M' :: '.' :: [] from rfl]
    rw [show (str ".md").reverse = 'd' :: 'm' :: '.' :: [] from rfl]
    show (('D' == 'd') && startsWith ('M' :: '.' :: s.reverse) ('m' :: '.' :: []))
        = false
    rw [show (('D' : Char) == 'd') = false from by decide]
    simp
  refine ⟨?_, by decide, by decide, by decide, ?_, by decide, ?_⟩
  · intro s
    unfold normalizeFilename trimSuffix
    rw [hends s]
    simp only [Bool.false_eq_true, if_false]
    rw [List.append_assoc]
    rfl
  · intro isDir firstLine
    have h1 : startsWith (str ".md") (str ".") = true := by decide
    simp [entryQualifies, h1]
  · intro m h1 h2
    have h3 := update_input_enter_nonempty m h1 (by rw [h2]; decide)
    have hn : normalizeFilename m.textInput = str ".md" := by
      rw [h2]
      decide
    rw [hn] at h3
    exact h3

/-- C10 (witness): the buffer `".md"` is accepted and becomes the hidden
pending path `".md"`. -/
theorem normalization_scanner_mismatch_witness :
    update { initialNewNoteModel with textInput := str ".md" }
        (Msg.key (str "enter"))
      = ({ initialNewNoteModel with
            textInput := str ".md"
            choice := str ".md"
            mode := Mode.modeTagInput }, false) := by
  rw [normalization_scanner_mismatch.2.2.2.2.2.2
    { initialNewNoteModel with textInput := str ".md" } rfl rfl]

end Snsm
